import Mathlib

/-!
Shallow embedding of the `ima-measurements` crate (`src/lib.rs`): a streaming
decoder for IMA measurement logs together with a PCR register tracker.

Conventions of the embedding:
* Rust byte streams (`R: Read`) are modelled as `List Nat` of remaining bytes;
  a read returns the consumed bytes and the rest, or an end-of-file error.
* Rust `String` values are modelled as lists of Unicode code points
  (`List Nat`), produced by an explicit UTF-8 decoder mirroring
  `core::str::from_utf8` validity.
* Fallible Rust functions return `PRes`, which has a third outcome `panicked`
  modelling a Rust panic (`todo!()`, or a slice-index panic such as
  `split_at` out of bounds).
* The PCR extender comes from the external `tpmless-tpm2` crate (not part of
  this repository's sources); it is modelled from the spec, see `PcrExtender`.
-/

/-- Rust `vec![0; len]` (`zeroed_vec` in the source). -/
def zeros (n : Nat) : List Nat := List.replicate n 0

/-- Code points of the template name string `"ima"`. -/
def imaLit : List Nat := [105, 109, 97]

/-- Code points of `"ima-ng"`. -/
def imaNgLit : List Nat := [105, 109, 97, 45, 110, 103]

/-- Code points of `"ima-sig"`. -/
def imaSigLit : List Nat := [105, 109, 97, 45, 115, 105, 103]

/-- Code points of `"ima-buf"`. -/
def imaBufLit : List Nat := [105, 109, 97, 45, 98, 117, 102]

/-- Code points of `"ima-modsig"`. -/
def imaModsigLit : List Nat := [105, 109, 97, 45, 109, 111, 100, 115, 105, 103]

/-- Code points of `"sha1"`. -/
def sha1Lit : List Nat := [115, 104, 97, 49]

/-- Code points of `"sha256"`. -/
def sha256Lit : List Nat := [115, 104, 97, 50, 53, 54]

/-- Code points of `"sha384"`. -/
def sha384Lit : List Nat := [115, 104, 97, 51, 56, 52]

/-- Code points of `"sha512"`. -/
def sha512Lit : List Nat := [115, 104, 97, 53, 49, 50]

/-- The supported digest algorithms (`tpmless_tpm2::DigestAlgorithm`,
restricted to the four the crate registers in `Parser::new`). -/
inductive Alg where
  | sha1
  | sha256
  | sha384
  | sha512
  deriving DecidableEq

/-- Canonical digest output width in bytes per algorithm. -/
def Alg.outLen : Alg → Nat
  | .sha1 => 20
  | .sha256 => 32
  | .sha384 => 48
  | .sha512 => 64

/-- Modelled from the spec: `DigestAlgorithm::from_str` of the external
`tpmless-tpm2` crate, recognizing exactly the supported algorithm names. -/
def Alg.fromStr (s : List Nat) : Option Alg :=
  if s = sha1Lit then some .sha1
  else if s = sha256Lit then some .sha256
  else if s = sha384Lit then some .sha384
  else if s = sha512Lit then some .sha512
  else none

/-- The list of all supported algorithms. -/
def allAlgs : List Alg := [.sha1, .sha256, .sha384, .sha512]

/-- I/O error kinds a `List`-backed byte source can produce
(`std::io::ErrorKind::UnexpectedEof` from `read_exact`). -/
inductive IoErr where
  | unexpectedEof
  deriving DecidableEq

/-- The crate's `Error` enum (`lib.rs` lines 13-33). String payloads are kept
as code-point lists. `FromStr` failure of the external `DigestAlgorithm` is
modelled from the spec as the unknown-algorithm error. -/
inductive Error where
  | io : IoErr → Error
  | utf8 : Error
  | utf8Str : Error
  | unsupportedTemplate : List Nat → Error
  | fromCString : Error
  | cstringToString : Error
  | dataError : Error
  | unknownDigestAlgo : List Nat → Error
  | tpmless : Error
  deriving DecidableEq

/-- Outcome of a fallible Rust computation: success, an `Error`, or a panic. -/
inductive PRes (α : Type) where
  | ok : α → PRes α
  | err : Error → PRes α
  | panicked : PRes α
  deriving DecidableEq

/-- Sequencing of fallible computations (`?` propagation plus panic
propagation). -/
def PRes.bind {α β : Type} (x : PRes α) (f : α → PRes β) : PRes β :=
  match x with
  | .ok a => f a
  | .err e => .err e
  | .panicked => .panicked

/-- Rust `Read::read_exact` over a list source: take exactly `n` bytes or fail with
`UnexpectedEof` (also when a partial prefix was available). -/
def readExact (n : Nat) (s : List Nat) : Except IoErr (List Nat × List Nat) :=
  if n ≤ s.length then .ok (s.take n, s.drop n) else .error .unexpectedEof

/-- Combine four bytes little-endian into a `u32` value. -/
def leU32 : List Nat → Nat
  | [a, b, c, d] => a + 256 * b + 65536 * c + 16777216 * d
  | _ => 0

/-- Rust `ReadBytesExt::read_u32::<LittleEndian>`: read four bytes, combine LE. -/
def readU32le (s : List Nat) : Except IoErr (Nat × List Nat) :=
  match readExact 4 s with
  | .error e => .error e
  | .ok (b, r) => .ok (leU32 b, r)

/-- Little-endian encoding of a `u32` value (auxiliary, used to build concrete
streams in theorem statements). -/
def u32le (n : Nat) : List Nat :=
  [n % 256, n / 256 % 256, n / 65536 % 256, n / 16777216 % 256]

/-- UTF-8 continuation byte test. -/
def isCont (b : Nat) : Prop := 128 ≤ b ∧ b ≤ 191

instance (b : Nat) : Decidable (isCont b) := by unfold isCont; infer_instance

/-- Code point of a three-byte UTF-8 sequence. -/
def cp3 (b c d : Nat) : Nat := (b - 224) * 4096 + (c - 128) * 64 + (d - 128)

/-- Code point of a four-byte UTF-8 sequence. -/
def cp4 (b c d e : Nat) : Nat :=
  (b - 240) * 262144 + (c - 128) * 4096 + (d - 128) * 64 + (e - 128)

/-- Validity of a two-byte UTF-8 sequence (no overlongs). -/
def twoOk (b c : Nat) : Prop := (194 ≤ b ∧ b ≤ 223) ∧ isCont c

/-- Valid (leading, second) byte combinations of a three-byte UTF-8 sequence
(no overlongs, no surrogates). -/
def threeOk (b c d : Nat) : Prop :=
  ((b = 224 ∧ 160 ≤ c ∧ c ≤ 191) ∨
    (((225 ≤ b ∧ b ≤ 236) ∨ b = 238 ∨ b = 239) ∧ isCont c) ∨
    (b = 237 ∧ 128 ≤ c ∧ c ≤ 159)) ∧ isCont d

/-- Valid (leading, second) byte combinations of a four-byte UTF-8 sequence
(no overlongs, max U+10FFFF). -/
def fourOk (b c d e : Nat) : Prop :=
  ((b = 240 ∧ 144 ≤ c ∧ c ≤ 191) ∨
    ((241 ≤ b ∧ b ≤ 243) ∧ isCont c) ∨
    (b = 244 ∧ 128 ≤ c ∧ c ≤ 143)) ∧ isCont d ∧ isCont e

instance (b c : Nat) : Decidable (twoOk b c) := by unfold twoOk; infer_instance

instance (b c d : Nat) : Decidable (threeOk b c d) := by
  unfold threeOk; infer_instance

instance (b c d e : Nat) : Decidable (fourOk b c d e) := by
  unfold fourOk; infer_instance

/-- Code point of a two-byte UTF-8 sequence. -/
def cp2 (b c : Nat) : Nat := (b - 192) * 64 + (c - 128)

/-- Strict UTF-8 decoding of a byte list into code points, mirroring the
validity rules of `core::str::from_utf8` (RFC 3629: no overlongs, no
surrogates, max U+10FFFF). Returns `none` on invalid input. -/
def utf8Decode : List Nat → Option (List Nat)
  | [] => some []
  | b :: t =>
    if b < 128 then (utf8Decode t).map (fun r => b :: r)
    else
      match t with
      | [] => none
      | c :: t2 =>
        if twoOk b c then (utf8Decode t2).map (fun r => cp2 b c :: r)
        else
          match t2 with
          | [] => none
          | d :: t3 =>
            if threeOk b c d then (utf8Decode t3).map (fun r => cp3 b c d :: r)
            else
              match t3 with
              | [] => none
              | e :: t4 =>
                if fourOk b c d e then (utf8Decode t4).map (fun r => cp4 b c d e :: r)
                else none

/-- Helper for `str::trim_end_matches('\0')`: strip leading zeros of the
reversed code-point list. -/
def stripNulRev : List Nat → List Nat
  | [] => []
  | h :: t => if h = 0 then stripNulRev t else h :: t

/-- Rust `str::trim_end_matches('\0')`: remove all trailing NUL code points. -/
def trimNulSuffix (l : List Nat) : List Nat := (stripNulRev l.reverse).reverse

/-- Helper for `str::trim_end_matches(":\0")`: strip leading `[0, 58]` pairs
of the reversed code-point list. -/
def stripCNrev : List Nat → List Nat
  | a :: b :: t => if a = 0 ∧ b = 58 then stripCNrev t else a :: b :: t
  | l => l

/-- Rust `str::trim_end_matches(":\0")`: repeatedly remove an exact trailing
`":\0"` (code points `[58, 0]`). -/
def trimColonNulSuffix (l : List Nat) : List Nat := (stripCNrev l.reverse).reverse

/-- Rust `Iterator::position` specialised to finding a byte value
(`buf.iter().position(|&r| r == b':')` in the source). -/
def posOf (x : Nat) : List Nat → Option Nat
  | [] => none
  | y :: t => if y = x then some 0 else (posOf x t).map (· + 1)

/-- The crate's `Digest` struct: an algorithm tag and raw digest bytes. -/
structure Digest where
  algo : Alg
  digest : List Nat
  deriving DecidableEq

/-- Placeholder entity for `ima-sig` signatures (never constructed: its
decoder is `todo!()`). -/
inductive Signature where
  | mk
  deriving DecidableEq

/-- Placeholder entity for `ima-buf` buffers (never constructed). -/
inductive Buffer where
  | mk
  deriving DecidableEq

/-- Placeholder entity for `ima-modsig` module signatures (never
constructed). -/
inductive Modsig where
  | mk
  deriving DecidableEq

/-- The crate's `EventData` tagged union, one variant per template kind. -/
inductive EventData where
  | ima (digest : Digest) (name : List Nat)
  | imaNg (digest : Digest) (name : List Nat)
  | imaSig (digest : Digest) (name : List Nat) (signature : Signature)
  | imaBuf (digest : Digest) (name : List Nat) (buffer : Buffer)
  | imaModsig (digest : Digest) (name : List Nat) (signature : Signature) (modsig : Modsig)
  deriving DecidableEq

/-- The source's `parse_signature` is `todo!()` — it unconditionally panics. -/
def parse_signature (_s : List Nat) : PRes (Signature × List Nat) := .panicked

/-- The source's `parse_buffer` is `todo!()` — it unconditionally panics. -/
def parse_buffer (_s : List Nat) : PRes (Buffer × List Nat) := .panicked

/-- The source's `parse_modsig` is `todo!()` — it unconditionally panics. -/
def parse_modsig (_s : List Nat) : PRes (Modsig × List Nat) := .panicked

/-- The source's `parse_digest` (`lib.rs` lines 97-122). Legacy layout: 20 raw bytes,
algorithm fixed to `"sha1"`. Modern layout: 4-byte LE length, that many
bytes; the span up to and including the first `':'` and the byte after it is
the algorithm identifier (UTF-8-decoded, exact trailing `":\0"` trimmed), the
remainder is the digest. `buf.split_at(split + 2)` panics when `split + 2`
exceeds the buffer length, which the model reproduces as `panicked`. -/
def parse_digest (legacy : Bool) (s : List Nat) : PRes (Digest × List Nat) :=
  match (if legacy then Except.ok (20, s) else readU32le s) with
  | .error e => .err (.io e)
  | .ok (len, s1) =>
    match readExact len s1 with
    | .error e => .err (.io e)
    | .ok (buf, s2) =>
      if legacy then
        match Alg.fromStr sha1Lit with
        | some a => .ok (⟨a, buf⟩, s2)
        | none => .err (.unknownDigestAlgo sha1Lit)
      else
        match posOf 58 buf with
        | none => .err .dataError
        | some p =>
          if p + 2 ≤ buf.length then
            match utf8Decode (buf.take (p + 2)) with
            | none => .err .utf8Str
            | some cps =>
              match Alg.fromStr (trimColonNulSuffix cps) with
              | some alg => .ok (⟨alg, buf.drop (p + 2)⟩, s2)
              | none => .err (.unknownDigestAlgo (trimColonNulSuffix cps))
          else .panicked

/-- Rust `CStr::from_bytes_with_nul` validity: nonempty, final byte NUL, no
interior NUL. -/
def cstrNulOk (buf : List Nat) : Bool :=
  decide (buf ≠ []) && decide (buf.getLast? = some 0) && !(decide (0 ∈ buf.dropLast))

/-- The source's `parse_name` (`lib.rs` lines 124-138). A 4-byte LE length then that many
bytes; legacy ("raw") layout decodes them directly as UTF-8, the strict
layout requires a well-formed null-terminated C string first; both strip
trailing NUL code points from the result. -/
def parse_name (legacy : Bool) (s : List Nat) : PRes (List Nat × List Nat) :=
  match readU32le s with
  | .error e => .err (.io e)
  | .ok (len, s1) =>
    match readExact len s1 with
    | .error e => .err (.io e)
    | .ok (buf, s2) =>
      if legacy then
        match utf8Decode buf with
        | none => .err .utf8
        | some cps => .ok (trimNulSuffix cps, s2)
      else
        if cstrNulOk buf then
          match utf8Decode buf.dropLast with
          | none => .err .utf8Str
          | some cps => .ok (trimNulSuffix cps, s2)
        else .err .fromCString

/-- The source's `EventData::parse` (`lib.rs` lines 140-193): dispatch on the
name. -/
def EventData.parse (tname : List Nat) (s : List Nat) : PRes (EventData × List Nat) :=
  if tname = imaLit then
    (parse_digest true s).bind fun ds =>
      (parse_name true ds.2).bind fun ns =>
        .ok (.ima ds.1 ns.1, ns.2)
  else if tname = imaNgLit then
    (parse_digest false s).bind fun ds =>
      (parse_name true ds.2).bind fun ns =>
        .ok (.imaNg ds.1 ns.1, ns.2)
  else if tname = imaSigLit then
    (parse_digest false s).bind fun ds =>
      (parse_name false ds.2).bind fun ns =>
        (parse_signature ns.2).bind fun ss =>
          .ok (.imaSig ds.1 ns.1 ss.1, ss.2)
  else if tname = imaBufLit then
    (parse_digest false s).bind fun ds =>
      (parse_name false ds.2).bind fun ns =>
        (parse_buffer ns.2).bind fun bs =>
          .ok (.imaBuf ds.1 ns.1 bs.1, bs.2)
  else if tname = imaModsigLit then
    (parse_digest false s).bind fun ds =>
      (parse_name false ds.2).bind fun ns =>
        (parse_signature ns.2).bind fun ss =>
          (parse_modsig ss.2).bind fun ms =>
            .ok (.imaModsig ds.1 ns.1 ss.1 ms.1, ms.2)
  else .err (.unsupportedTemplate tname)

/-- Modelled from the spec: the digest-function family behind the external
`tpmless-tpm2` crate's `PcrExtender` ("`Hash` is that algorithm's one-way
digest function"). Kept abstract: theorems quantify over it. -/
structure HashSpec where
  hash : Alg → List Nat → List Nat

/-- Modelled from the spec: the `tpmless_tpm2::PcrExtender` register banks,
one per supported algorithm; each bank is a mapping from register index to
current value, "absence of a key means never extended, logically zero". -/
structure PcrExtender where
  sha1bank : List (Nat × List Nat)
  sha256bank : List (Nat × List Nat)
  sha384bank : List (Nat × List Nat)
  sha512bank : List (Nat × List Nat)
  deriving DecidableEq

/-- The bank of a given algorithm. -/
def PcrExtender.bank (e : PcrExtender) : Alg → List (Nat × List Nat)
  | .sha1 => e.sha1bank
  | .sha256 => e.sha256bank
  | .sha384 => e.sha384bank
  | .sha512 => e.sha512bank

/-- Insert-or-replace in a register bank. -/
def bankUpd (b : List (Nat × List Nat)) (idx : Nat) (v : List Nat) :
    List (Nat × List Nat) :=
  match b with
  | [] => [(idx, v)]
  | (j, w) :: t => if j = idx then (idx, v) :: t else (j, w) :: bankUpd t idx v

/-- One algorithm's extension step: `new = Hash(old ++ Hash(data))`, `old`
defaulting to all-zero bytes of the algorithm's width. Modelled from the
spec (§4.5 register-extension recurrence). -/
def extendBank (H : HashSpec) (a : Alg) (b : List (Nat × List Nat))
    (idx : Nat) (data : List Nat) : List (Nat × List Nat) :=
  bankUpd b idx
    (H.hash a (((List.lookup idx b).getD (zeros a.outLen)) ++ H.hash a data))

/-- Modelled from the spec: `PcrExtender::extend(register_index, raw_bytes)`
updates every supported algorithm's register independently; it never fails
for well-formed input. -/
def PcrExtender.extend (H : HashSpec) (e : PcrExtender) (idx : Nat)
    (data : List Nat) : PcrExtender where
  sha1bank := extendBank H .sha1 e.sha1bank idx data
  sha256bank := extendBank H .sha256 e.sha256bank idx data
  sha384bank := extendBank H .sha384 e.sha384bank idx data
  sha512bank := extendBank H .sha512 e.sha512bank idx data

/-- The tracker built by `Parser::new` via `PcrExtenderBuilder`: all four
banks registered, nothing extended yet. -/
def emptyExtender : PcrExtender := ⟨[], [], [], []⟩

/-- The crate's `Event` struct: register index, fixed template SHA1, decoded
event data. -/
structure Event where
  pcr_index : Nat
  template_sha1 : List Nat
  data : EventData
  deriving DecidableEq

/-- The crate's `Parser` struct: the byte source plus the PCR tracker. -/
structure ParserState where
  reader : List Nat
  pcr_tracker : PcrExtender
  deriving DecidableEq

/-- The source's `Parser::next` (`impl FallibleIterator`, `lib.rs` lines 303-339): frame one
record (index, template SHA1, template name, event-data length, event data),
structurally decode the event data, then extend the tracker with the same raw
span. An `UnexpectedEof` on the very first field is the clean end of the
log. Returns the outcome together with the mutated parser state. -/
def Parser.next (H : HashSpec) (st : ParserState) :
    PRes (Option Event) × ParserState :=
  match readU32le st.reader with
  | .error .unexpectedEof => (.ok none, st)
  | .ok (pcr_index, r1) =>
    match readExact 20 r1 with
    | .error e => (.err (.io e), ⟨r1, st.pcr_tracker⟩)
    | .ok (template_sha1, r2) =>
      match readU32le r2 with
      | .error e => (.err (.io e), ⟨r2, st.pcr_tracker⟩)
      | .ok (template_name_size, r3) =>
        match readExact template_name_size r3 with
        | .error e => (.err (.io e), ⟨r3, st.pcr_tracker⟩)
        | .ok (template_name_bytes, r4) =>
          match utf8Decode template_name_bytes with
          | none => (.err .utf8, ⟨r4, st.pcr_tracker⟩)
          | some template_name =>
            match readU32le r4 with
            | .error e => (.err (.io e), ⟨r4, st.pcr_tracker⟩)
            | .ok (eventdata_len, r5) =>
              match readExact eventdata_len r5 with
              | .error e => (.err (.io e), ⟨r5, st.pcr_tracker⟩)
              | .ok (event_data, r6) =>
                match EventData.parse template_name event_data with
                | .err e => (.err e, ⟨r6, st.pcr_tracker⟩)
                | .panicked => (.panicked, ⟨r6, st.pcr_tracker⟩)
                | .ok (eventdata, _rest) =>
                  (.ok (some ⟨pcr_index, template_sha1, eventdata⟩),
                    ⟨r6, PcrExtender.extend H st.pcr_tracker pcr_index event_data⟩)

/-- The crate's `PcrValue` struct: one fixed-width value per algorithm. -/
structure PcrValue where
  sha1 : List Nat
  sha256 : List Nat
  sha384 : List Nat
  sha512 : List Nat
  deriving DecidableEq

/-- The source's `PcrValue::default()`: all-zero values of each algorithm's width. -/
def PcrValue.default : PcrValue := ⟨zeros 20, zeros 32, zeros 48, zeros 64⟩

/-- Set the field of a `PcrValue` belonging to one algorithm. -/
def setAlg (pv : PcrValue) (a : Alg) (v : List Nat) : PcrValue :=
  match a with
  | .sha1 => { pv with sha1 := v }
  | .sha256 => { pv with sha256 := v }
  | .sha384 => { pv with sha384 := v }
  | .sha512 => { pv with sha512 := v }

/-- The crate's `PcrValues`: a `BTreeMap<u32, PcrValue>`, modelled as an
assoc list sorted by key. -/
def PcrValues : Type := List (Nat × PcrValue)

/-- Ordered insert-or-get plus field update, mirroring
`vals.get_mut(&pcr)` / `vals.insert(pcr, Default::default())` in
`pcr_extender_to_values`. -/
def valsUpd (vals : List (Nat × PcrValue)) (idx : Nat) (a : Alg)
    (v : List Nat) : List (Nat × PcrValue) :=
  match vals with
  | [] => [(idx, setAlg PcrValue.default a v)]
  | (j, pv) :: t =>
    if idx < j then (idx, setAlg PcrValue.default a v) :: (j, pv) :: t
    else if idx = j then (j, setAlg pv a v) :: t
    else (j, pv) :: valsUpd t idx a v

/-- The skip test `val.iter().all(|v| *v == 0x00)` for untouched registers. -/
def isZeroVal (v : List Nat) : Bool := v.all (fun b => b == 0)

/-- Processing of one `(pcr, val)` bank entry in `pcr_extender_to_values`:
all-zero values are skipped, others stored in their algorithm's field. -/
def procEntry (a : Alg) (vals : List (Nat × PcrValue)) (e : Nat × List Nat) :
    List (Nat × PcrValue) :=
  if isZeroVal e.2 then vals else valsUpd vals e.1 a e.2

/-- The source's `pcr_extender_to_values` (`lib.rs` lines 235-274): fold every algorithm's
bank into the `BTreeMap`, skipping all-zero register values. -/
def pcr_extender_to_values (ext : PcrExtender) : List (Nat × PcrValue) :=
  allAlgs.foldl (fun vals a => (ext.bank a).foldl (procEntry a) vals) []

/-- The source's `Parser::pcr_values` (`lib.rs` lines 228-230). -/
def Parser.pcr_values (st : ParserState) : List (Nat × PcrValue) :=
  pcr_extender_to_values st.pcr_tracker

/-- Replay of a list of `(register_index, raw_bytes)` extensions in log
order. -/
def replayExtends (H : HashSpec) (e : PcrExtender)
    (tr : List (Nat × List Nat)) : PcrExtender :=
  tr.foldl (fun acc t => PcrExtender.extend H acc t.1 t.2) e

/-- A concrete executable digest family used to instantiate the abstract
`HashSpec` in witnesses: first byte 1 (so outputs are never all-zero), the
rest determined by the input length. -/
def demoHash : HashSpec where
  hash := fun a m => 1 :: List.replicate (a.outLen - 1) (m.length % 256)

/-- Helper for trimming trailing ':' or NUL characters (character-set based,
as opposed to the exact-suffix `trimColonNulSuffix`). -/
def stripColonNulCharsRev : List Nat → List Nat
  | [] => []
  | h :: t => if h = 0 ∨ h = 58 then stripColonNulCharsRev t else h :: t

/-- Remove all trailing ':' and NUL characters. -/
def trimColonNulChars (l : List Nat) : List Nat :=
  (stripColonNulCharsRev l.reverse).reverse

/-- Follows the claim C7 words: "the algorithm identifier is every byte
before the first `:` byte (trimmed of trailing `:`/NUL)". Used only to
exhibit where the code diverges from this description. -/
def claimModernAlgoIdentifier (buf : List Nat) : Option (List Nat) :=
  (posOf 58 buf).map (fun p => trimColonNulChars (buf.take p))

/-- A concrete log record with the unrecognized template name `"bad"` and
empty event data. -/
def badRec : List Nat :=
  [0, 0, 0, 0] ++ zeros 20 ++ [3, 0, 0, 0] ++ [98, 97, 100] ++ [0, 0, 0, 0]

/-- A concrete well-formed `"ima"`-templated record targeting register 10:
a 20-byte legacy digest of byte 7 and the file name `"abcd"`. -/
def goodRec : List Nat :=
  [10, 0, 0, 0] ++ zeros 20 ++ [3, 0, 0, 0] ++ [105, 109, 97] ++ [28, 0, 0, 0] ++
    List.replicate 20 7 ++ [4, 0, 0, 0] ++ [97, 98, 99, 100]

/-- The raw event-data span of `goodRec`. -/
def goodRaw : List Nat := List.replicate 20 7 ++ [4, 0, 0, 0] ++ [97, 98, 99, 100]

/-! ### Helper lemmas about the byte-source primitives -/

theorem readExact_eq_ok {n : Nat} {s b r : List Nat}
    (h : readExact n s = .ok (b, r)) : b.length = n ∧ s = b ++ r := by
  unfold readExact at h
  split at h
  · cases h
    refine ⟨?_, ?_⟩
    · simpa using ‹n ≤ s.length›
    · simp
  · cases h

theorem readExact_append (b r : List Nat) :
    readExact b.length (b ++ r) = .ok (b, r) := by
  unfold readExact
  rw [if_pos (by simp)]
  simp

theorem readExact_error_length {n : Nat} {s : List Nat} {e : IoErr}
    (h : readExact n s = .error e) : s.length < n := by
  unfold readExact at h
  split at h
  · cases h
  · omega

theorem leU32_u32le {n : Nat} (h : n < 4294967296) : leU32 (u32le n) = n := by
  show n % 256 + 256 * (n / 256 % 256) + 65536 * (n / 65536 % 256) +
      16777216 * (n / 16777216 % 256) = n
  omega

theorem readU32le_append {n : Nat} (r : List Nat) (h : n < 4294967296) :
    readU32le (u32le n ++ r) = .ok (n, r) := by
  unfold readU32le
  have h4 : (u32le n).length = 4 := rfl
  have := readExact_append (u32le n) r
  rw [h4] at this
  rw [this]
  simp only []
  rw [leU32_u32le h]

theorem readU32le_error_length {s : List Nat} {e : IoErr}
    (h : readU32le s = .error e) : s.length < 4 := by
  unfold readU32le at h
  cases hre : readExact 4 s with
  | error e2 => exact readExact_error_length hre
  | ok v => rw [hre] at h; cases h

/-! ### Helper lemmas about UTF-8 decoding -/

theorem cp2_ge {b c : Nat} (h : twoOk b c) : 128 ≤ cp2 b c := by
  unfold twoOk isCont at h
  unfold cp2
  omega

theorem cp3_ge {b c d : Nat} (h : threeOk b c d) : 128 ≤ cp3 b c d := by
  unfold threeOk isCont at h
  unfold cp3
  omega

theorem cp4_ge {b c d e : Nat} (h : fourOk b c d e) : 128 ≤ cp4 b c d e := by
  unfold fourOk isCont at h
  unfold cp4
  omega

theorem utf8_step_low {b : Nat} (t : List Nat) (hb : b < 128) :
    utf8Decode (b :: t) = (utf8Decode t).map (fun r => b :: r) := by
  conv_lhs => unfold utf8Decode
  simp only [if_pos hb]

theorem utf8_step_two {b c : Nat} (t : List Nat) (hb : ¬ b < 128)
    (htw : twoOk b c) :
    utf8Decode (b :: c :: t) = (utf8Decode t).map (fun r => cp2 b c :: r) := by
  conv_lhs => unfold utf8Decode
  simp only [if_neg hb, if_pos htw]

theorem utf8_step_three {b c d : Nat} (t : List Nat) (hb : ¬ b < 128)
    (htw : ¬ twoOk b c) (hth : threeOk b c d) :
    utf8Decode (b :: c :: d :: t) = (utf8Decode t).map (fun r => cp3 b c d :: r) := by
  conv_lhs => unfold utf8Decode
  simp only [if_neg hb, if_neg htw, if_pos hth]

theorem utf8_step_four {b c d e : Nat} (t : List Nat) (hb : ¬ b < 128)
    (htw : ¬ twoOk b c) (hth : ¬ threeOk b c d) (hfo : fourOk b c d e) :
    utf8Decode (b :: c :: d :: e :: t) =
      (utf8Decode t).map (fun r => cp4 b c d e :: r) := by
  conv_lhs => unfold utf8Decode
  simp only [if_neg hb, if_neg htw, if_neg hth, if_pos hfo]

theorem utf8_none_one {b : Nat} (hb : ¬ b < 128) : utf8Decode [b] = none := by
  unfold utf8Decode
  simp only [if_neg hb]

theorem utf8_none_two {b c : Nat} (hb : ¬ b < 128) (htw : ¬ twoOk b c) :
    utf8Decode [b, c] = none := by
  unfold utf8Decode
  simp only [if_neg hb, if_neg htw]

theorem utf8_none_three {b c d : Nat} (hb : ¬ b < 128) (htw : ¬ twoOk b c)
    (hth : ¬ threeOk b c d) : utf8Decode [b, c, d] = none := by
  unfold utf8Decode
  simp only [if_neg hb, if_neg htw, if_neg hth]

theorem utf8_none_four {b c d e : Nat} (t : List Nat) (hb : ¬ b < 128)
    (htw : ¬ twoOk b c) (hth : ¬ threeOk b c d) (hfo : ¬ fourOk b c d e) :
    utf8Decode (b :: c :: d :: e :: t) = none := by
  unfold utf8Decode
  simp only [if_neg hb, if_neg htw, if_neg hth, if_neg hfo]

/-- Code points below 128 in a decoded string come verbatim from the input
bytes. -/
theorem utf8Decode_low_mem (l : List Nat) :
    ∀ cp, utf8Decode l = some cp → ∀ x, x ∈ cp → x < 128 → x ∈ l := by
  induction l using utf8Decode.induct with
  | case1 =>
    intro cp h x hx _
    unfold utf8Decode at h
    cases h
    simp at hx
  | case2 b t hb ih =>
    intro cp h x hx hlt
    rw [utf8_step_low t hb] at h
    rcases Option.map_eq_some'.mp h with ⟨r, hr, rfl⟩
    rcases List.mem_cons.mp hx with rfl | hxr
    · exact List.mem_cons_self _ _
    · exact List.mem_cons_of_mem _ (ih r hr x hxr hlt)
  | case3 b hb =>
    intro cp h x hx _
    rw [utf8_none_one hb] at h
    simp at h
  | case4 b hb c t2 htw ih =>
    intro cp h x hx hlt
    rw [utf8_step_two t2 hb htw] at h
    rcases Option.map_eq_some'.mp h with ⟨r, hr, rfl⟩
    rcases List.mem_cons.mp hx with heq | hxr
    · have h1 := cp2_ge htw
      omega
    · exact List.mem_cons_of_mem _ (List.mem_cons_of_mem _ (ih r hr x hxr hlt))
  | case5 b hb c htw =>
    intro cp h x hx _
    rw [utf8_none_two hb htw] at h
    simp at h
  | case6 b hb c htw d t3 hth ih =>
    intro cp h x hx hlt
    rw [utf8_step_three t3 hb htw hth] at h
    rcases Option.map_eq_some'.mp h with ⟨r, hr, rfl⟩
    rcases List.mem_cons.mp hx with heq | hxr
    · have h1 := cp3_ge hth
      omega
    · exact List.mem_cons_of_mem _ (List.mem_cons_of_mem _
        (List.mem_cons_of_mem _ (ih r hr x hxr hlt)))
  | case7 b hb c htw d hth =>
    intro cp h x hx _
    rw [utf8_none_three hb htw hth] at h
    simp at h
  | case8 b hb c htw d hth e t4 hfo ih =>
    intro cp h x hx hlt
    rw [utf8_step_four t4 hb htw hth hfo] at h
    rcases Option.map_eq_some'.mp h with ⟨r, hr, rfl⟩
    rcases List.mem_cons.mp hx with heq | hxr
    · have h1 := cp4_ge hfo
      omega
    · exact List.mem_cons_of_mem _ (List.mem_cons_of_mem _
        (List.mem_cons_of_mem _ (List.mem_cons_of_mem _ (ih r hr x hxr hlt))))
  | case9 b hb c htw d hth e t4 hfo =>
    intro cp h x hx _
    rw [utf8_none_four t4 hb htw hth hfo] at h
    simp at h

/-- Decoding distributes over append when the first part is wholly valid. -/
theorem utf8Decode_append (l₂ l₁ : List Nat) :
    ∀ c₁, utf8Decode l₁ = some c₁ →
      utf8Decode (l₁ ++ l₂) = (utf8Decode l₂).map (fun r => c₁ ++ r) := by
  induction l₁ using utf8Decode.induct with
  | case1 =>
    intro c₁ h
    unfold utf8Decode at h
    cases h
    simp
  | case2 b t hb ih =>
    intro c₁ h
    rw [utf8_step_low t hb] at h
    rcases Option.map_eq_some'.mp h with ⟨r, hr, rfl⟩
    rw [List.cons_append, utf8_step_low _ hb, ih r hr]
    cases utf8Decode l₂ <;> simp
  | case3 b hb =>
    intro c₁ h
    rw [utf8_none_one hb] at h
    simp at h
  | case4 b hb c t2 htw ih =>
    intro c₁ h
    rw [utf8_step_two t2 hb htw] at h
    rcases Option.map_eq_some'.mp h with ⟨r, hr, rfl⟩
    rw [List.cons_append, List.cons_append, utf8_step_two _ hb htw, ih r hr]
    cases utf8Decode l₂ <;> simp
  | case5 b hb c htw =>
    intro c₁ h
    rw [utf8_none_two hb htw] at h
    simp at h
  | case6 b hb c htw d t3 hth ih =>
    intro c₁ h
    rw [utf8_step_three t3 hb htw hth] at h
    rcases Option.map_eq_some'.mp h with ⟨r, hr, rfl⟩
    rw [List.cons_append, List.cons_append, List.cons_append,
      utf8_step_three _ hb htw hth, ih r hr]
    cases utf8Decode l₂ <;> simp
  | case7 b hb c htw d hth =>
    intro c₁ h
    rw [utf8_none_three hb htw hth] at h
    simp at h
  | case8 b hb c htw d hth e t4 hfo ih =>
    intro c₁ h
    rw [utf8_step_four t4 hb htw hth hfo] at h
    rcases Option.map_eq_some'.mp h with ⟨r, hr, rfl⟩
    rw [List.cons_append, List.cons_append, List.cons_append, List.cons_append,
      utf8_step_four _ hb htw hth hfo, ih r hr]
    cases utf8Decode l₂ <;> simp
  | case9 b hb c htw d hth e t4 hfo =>
    intro c₁ h
    rw [utf8_none_four t4 hb htw hth hfo] at h
    simp at h

/-! ### Helper lemmas about trimming and searching -/

theorem stripNulRev_of_not_mem {l : List Nat} (h : 0 ∉ l) :
    stripNulRev l = l := by
  cases l with
  | nil => rfl
  | cons a t =>
    unfold stripNulRev
    rw [if_neg]
    intro ha
    exact h (ha ▸ List.mem_cons_self _ _)

theorem trimNulSuffix_of_not_mem {l : List Nat} (h : 0 ∉ l) :
    trimNulSuffix l = l := by
  unfold trimNulSuffix
  rw [stripNulRev_of_not_mem (by simpa using h), List.reverse_reverse]

theorem stripCNrev_of_not_mem {l : List Nat} (h : 58 ∉ l) :
    stripCNrev l = l := by
  match l with
  | [] => rfl
  | [a] => rfl
  | a :: b :: t =>
    unfold stripCNrev
    rw [if_neg]
    intro hab
    exact h (hab.2 ▸ List.mem_cons_of_mem _ (List.mem_cons_self _ _))

/-- Trimming an exact `":\0"` suffix from a colon-free prefix. -/
theorem trimColonNulSuffix_append {cp : List Nat} (h : 58 ∉ cp) :
    trimColonNulSuffix (cp ++ [58, 0]) = cp := by
  unfold trimColonNulSuffix
  have hrev : (cp ++ [58, 0]).reverse = 0 :: 58 :: cp.reverse := by simp
  rw [hrev]
  show (stripCNrev (0 :: 58 :: cp.reverse)).reverse = cp
  unfold stripCNrev
  rw [if_pos ⟨rfl, rfl⟩, stripCNrev_of_not_mem (by simpa using h),
    List.reverse_reverse]

theorem posOf_append_not_mem {x : Nat} {pre : List Nat} (post : List Nat)
    (h : x ∉ pre) :
    posOf x (pre ++ x :: post) = some pre.length := by
  induction pre with
  | nil => simp [posOf]
  | cons a t ih =>
    have hax : ¬ a = x := fun he => h (he ▸ List.mem_cons_self _ _)
    have ht : x ∉ t := fun hm => h (List.mem_cons_of_mem _ hm)
    show posOf x (a :: (t ++ x :: post)) = some (t.length + 1)
    unfold posOf
    rw [if_neg hax, ih ht]
    rfl

theorem posOf_not_mem {x : Nat} {l : List Nat} (h : x ∉ l) :
    posOf x l = none := by
  induction l with
  | nil => rfl
  | cons a t ih =>
    have hax : ¬ a = x := fun he => h (he ▸ List.mem_cons_self _ _)
    have ht : x ∉ t := fun hm => h (List.mem_cons_of_mem _ hm)
    simp only [posOf, if_neg hax, ih ht, Option.map_none']

/-! ### Helper lemmas about the register banks -/

theorem beq_false_of_ne_nat {a b : Nat} (h : ¬ a = b) : (a == b) = false :=
  beq_eq_false_iff_ne.mpr h

theorem lookup_bankUpd (b : List (Nat × List Nat)) (idx : Nat) (v : List Nat)
    (j : Nat) :
    List.lookup j (bankUpd b idx v) =
      if j = idx then some v else List.lookup j b := by
  induction b with
  | nil =>
    unfold bankUpd
    by_cases hj : j = idx
    · subst hj
      simp [List.lookup]
    · simp [List.lookup, beq_false_of_ne_nat hj, hj]
  | cons p t ih =>
    obtain ⟨k, w⟩ := p
    unfold bankUpd
    by_cases hk : k = idx
    · subst hk
      rw [if_pos rfl]
      by_cases hj : j = k
      · subst hj
        simp [List.lookup]
      · simp [List.lookup, beq_false_of_ne_nat hj, hj]
    · rw [if_neg hk]
      by_cases hj : j = k
      · subst hj
        simp [List.lookup, hk]
      · simp only [List.lookup, beq_false_of_ne_nat hj, ih]

theorem bank_extend (H : HashSpec) (e : PcrExtender) (idx : Nat)
    (data : List Nat) (a : Alg) (j : Nat) :
    List.lookup j ((PcrExtender.extend H e idx data).bank a) =
      if j = idx then
        some (H.hash a
          (((List.lookup idx (e.bank a)).getD (zeros a.outLen)) ++ H.hash a data))
      else List.lookup j (e.bank a) := by
  cases a <;>
    simp only [PcrExtender.extend, PcrExtender.bank, extendBank, lookup_bankUpd]

theorem emptyExtender_bank (a : Alg) : emptyExtender.bank a = [] := by
  cases a <;> rfl

/-! ### Helper lemmas about the snapshot construction -/

theorem lookup_valsUpd_isSome (idx : Nat) (a : Alg) (v : List Nat) (j : Nat) :
    ∀ vals, (List.lookup j (valsUpd vals idx a v)).isSome = true ↔
      (j = idx ∨ (List.lookup j vals).isSome = true) := by
  intro vals
  induction vals with
  | nil =>
    by_cases hj : j = idx
    · subst hj
      simp [valsUpd, List.lookup]
    · simp [valsUpd, List.lookup, beq_false_of_ne_nat hj, hj]
  | cons p t ih =>
    obtain ⟨k, pv⟩ := p
    unfold valsUpd
    by_cases hlt : idx < k
    · rw [if_pos hlt]
      by_cases hj : j = idx
      · subst hj
        simp [List.lookup]
      · simp [List.lookup, beq_false_of_ne_nat hj, hj]
    · rw [if_neg hlt]
      by_cases heq : idx = k
      · rw [if_pos heq]
        subst heq
        by_cases hj : j = idx
        · subst hj
          simp [List.lookup]
        · simp [List.lookup, beq_false_of_ne_nat hj, hj]
      · rw [if_neg heq]
        by_cases hj : j = k
        · subst hj
          simp [List.lookup]
        · simp only [List.lookup, beq_false_of_ne_nat hj, ih]

theorem lookup_foldl_procEntry (a : Alg) (bank : List (Nat × List Nat)) :
    ∀ vals j, (List.lookup j (bank.foldl (procEntry a) vals)).isSome = true ↔
      ((List.lookup j vals).isSome = true ∨
        ∃ e, e ∈ bank ∧ e.1 = j ∧ isZeroVal e.2 = false) := by
  induction bank with
  | nil => simp
  | cons ent t ih =>
    intro vals j
    rw [List.foldl_cons, ih]
    unfold procEntry
    by_cases hz : isZeroVal ent.2 = true
    · rw [if_pos hz]
      constructor
      · rintro (hv | he)
        · exact Or.inl hv
        · exact Or.inr ⟨he.choose, List.mem_cons_of_mem _ he.choose_spec.1,
            he.choose_spec.2⟩
      · rintro (hv | ⟨e, hmem, hj, hnz⟩)
        · exact Or.inl hv
        · rcases List.mem_cons.mp hmem with rfl | hmt
          · rw [hz] at hnz
            cases hnz
          · exact Or.inr ⟨e, hmt, hj, hnz⟩
    · rw [if_neg hz]
      have hzf : isZeroVal ent.2 = false := by
        cases h : isZeroVal ent.2
        · rfl
        · exact absurd h hz
      rw [lookup_valsUpd_isSome]
      constructor
      · rintro ((rfl | hv) | he)
        · exact Or.inr ⟨ent, List.mem_cons_self _ _, rfl, hzf⟩
        · exact Or.inl hv
        · exact Or.inr ⟨he.choose, List.mem_cons_of_mem _ he.choose_spec.1,
            he.choose_spec.2⟩
      · rintro (hv | ⟨e, hmem, hj, hnz⟩)
        · exact Or.inl (Or.inr hv)
        · rcases List.mem_cons.mp hmem with rfl | hmt
          · exact Or.inl (Or.inl hj.symm)
          · exact Or.inr ⟨e, hmt, hj, hnz⟩

theorem lookup_foldl_algs (ext : PcrExtender) (algs : List Alg) :
    ∀ vals j,
      (List.lookup j
        (algs.foldl (fun vs a => (ext.bank a).foldl (procEntry a) vs) vals)).isSome
          = true ↔
      ((List.lookup j vals).isSome = true ∨
        ∃ a, a ∈ algs ∧ ∃ e, e ∈ ext.bank a ∧ e.1 = j ∧ isZeroVal e.2 = false) := by
  induction algs with
  | nil => simp
  | cons a t ih =>
    intro vals j
    rw [List.foldl_cons, ih, lookup_foldl_procEntry]
    constructor
    · rintro ((hv | ⟨e, hm, hj, hnz⟩) | ⟨b, hbt, he⟩)
      · exact Or.inl hv
      · exact Or.inr ⟨a, List.mem_cons_self _ _, e, hm, hj, hnz⟩
      · exact Or.inr ⟨b, List.mem_cons_of_mem _ hbt, he⟩
    · rintro (hv | ⟨b, hmem, he⟩)
      · exact Or.inl (Or.inl hv)
      · rcases List.mem_cons.mp hmem with rfl | hbt
        · exact Or.inl (Or.inr he)
        · exact Or.inr ⟨b, hbt, he⟩

/-- Characterization of snapshot membership: a register index has an entry
iff some algorithm's bank holds a non-all-zero value for it. -/
theorem lookup_p2v_isSome (ext : PcrExtender) (j : Nat) :
    (List.lookup j (pcr_extender_to_values ext)).isSome = true ↔
      ∃ a, a ∈ allAlgs ∧ ∃ e, e ∈ ext.bank a ∧ e.1 = j ∧ isZeroVal e.2 = false := by
  unfold pcr_extender_to_values
  rw [lookup_foldl_algs]
  simp [List.lookup]

/-! ### Helper lemmas about replaying extensions -/

theorem lookup_isSome_of_mem {j : Nat} {v : List Nat}
    {b : List (Nat × List Nat)} (h : (j, v) ∈ b) :
    (List.lookup j b).isSome = true := by
  induction b with
  | nil => cases h
  | cons p t ih =>
    obtain ⟨k, w⟩ := p
    by_cases hj : j = k
    · subst hj
      simp [List.lookup]
    · simp only [List.lookup, beq_false_of_ne_nat hj]
      rcases List.mem_cons.mp h with heq | hmt
      · cases heq
        exact absurd rfl hj
      · exact ih hmt

theorem mem_of_lookup_eq_some {j : Nat} {v : List Nat}
    {b : List (Nat × List Nat)} (h : List.lookup j b = some v) : (j, v) ∈ b := by
  induction b with
  | nil => cases h
  | cons p t ih =>
    obtain ⟨k, w⟩ := p
    by_cases hj : j = k
    · subst hj
      simp only [List.lookup, beq_self_eq_true] at h
      cases h
      exact List.mem_cons_self _ _
    · simp only [List.lookup, beq_false_of_ne_nat hj] at h
      exact List.mem_cons_of_mem _ (ih h)

theorem replay_cons (H : HashSpec) (e : PcrExtender) (t : Nat × List Nat)
    (ts : List (Nat × List Nat)) :
    replayExtends H e (t :: ts) =
      replayExtends H (PcrExtender.extend H e t.1 t.2) ts := rfl

theorem replay_bank_isSome (H : HashSpec) (a : Alg) (j : Nat) :
    ∀ (tr : List (Nat × List Nat)) (e : PcrExtender),
      (List.lookup j ((replayExtends H e tr).bank a)).isSome = true ↔
        ((List.lookup j (e.bank a)).isSome = true ∨ j ∈ tr.map Prod.fst) := by
  intro tr
  induction tr with
  | nil => simp [replayExtends]
  | cons t ts ih =>
    intro e
    rw [replay_cons, ih]
    by_cases hj : j = t.1
    · subst hj
      simp [bank_extend]
    · rw [bank_extend]
      simp only [if_neg hj, List.map_cons, List.mem_cons]
      constructor
      · rintro (hv | hm)
        · exact Or.inl hv
        · exact Or.inr (Or.inr hm)
      · rintro (hv | (heq | hm))
        · exact Or.inl hv
        · exact absurd heq hj
        · exact Or.inr hm

theorem replay_values_nonzero (H : HashSpec)
    (hH : ∀ a m, ∃ b, b ∈ H.hash a m ∧ b ≠ 0) :
    ∀ (tr : List (Nat × List Nat)) (e : PcrExtender),
      (∀ a j v, List.lookup j (e.bank a) = some v → ∃ b, b ∈ v ∧ b ≠ 0) →
      ∀ a j v, List.lookup j ((replayExtends H e tr).bank a) = some v →
        ∃ b, b ∈ v ∧ b ≠ 0 := by
  intro tr
  induction tr with
  | nil =>
    intro e he a j v h
    exact he a j v h
  | cons t ts ih =>
    intro e he a j v h
    rw [replay_cons] at h
    refine ih (PcrExtender.extend H e t.1 t.2) ?_ a j v h
    intro a2 j2 v2 h2
    rw [bank_extend] at h2
    by_cases hj : j2 = t.1
    · rw [if_pos hj] at h2
      cases h2
      exact hH _ _
    · rw [if_neg hj] at h2
      exact he a2 j2 v2 h2

theorem isZeroVal_false_iff (v : List Nat) :
    isZeroVal v = false ↔ ∃ b, b ∈ v ∧ b ≠ 0 := by
  unfold isZeroVal
  induction v with
  | nil => simp
  | cons a t ih =>
    by_cases ha : a = 0
    · subst ha
      simp only [List.all_cons, beq_self_eq_true, Bool.true_and, ih]
      constructor
      · rintro ⟨b, hb, hnz⟩
        exact ⟨b, List.mem_cons_of_mem _ hb, hnz⟩
      · rintro ⟨b, hb, hnz⟩
        rcases List.mem_cons.mp hb with rfl | hbt
        · exact absurd rfl hnz
        · exact ⟨b, hbt, hnz⟩
    · simp only [List.all_cons, beq_false_of_ne_nat ha, Bool.false_and]
      exact Iff.intro (fun _ => ⟨a, List.mem_cons_self _ _, ha⟩) (fun _ => trivial)

theorem readExact_all (s : List Nat) : readExact s.length s = .ok (s, []) := by
  unfold readExact
  rw [if_pos (Nat.le_refl _)]
  simp

theorem cstrNulOk_iff (buf : List Nat) :
    cstrNulOk buf = true ↔
      (buf ≠ [] ∧ buf.getLast? = some 0 ∧ 0 ∉ buf.dropLast) := by
  unfold cstrNulOk
  simp [Bool.and_eq_true, decide_eq_true_eq, and_assoc]

/-- The strict C-string validity test holds exactly when the byte sequence
contains a single NUL, positioned at the final byte. -/
theorem cstrNulOk_iff_count (buf : List Nat) :
    cstrNulOk buf = true ↔
      (List.count 0 buf = 1 ∧ buf.getLast? = some 0) := by
  rw [cstrNulOk_iff]
  induction buf using List.reverseRecOn with
  | nil => simp
  | append_singleton init a _ =>
    rw [List.dropLast_concat, List.getLast?_concat, List.count_append]
    constructor
    · rintro ⟨-, ha, hnotmem⟩
      have ha0 : a = 0 := by simpa using ha
      subst ha0
      rw [List.count_eq_zero.mpr hnotmem]
      simp
    · rintro ⟨hcount, ha⟩
      have ha0 : a = 0 := by simpa using ha
      subst ha0
      have h1 : List.count 0 [0] = 1 := by simp
      rw [h1] at hcount
      have h0 : List.count 0 init = 0 := by omega
      exact ⟨by simp, by simp, List.count_eq_zero.mp h0⟩

/-! ### Helper facts about `Parser.next` -/

/-- Whenever `Parser.next` returns a decode error, the PCR tracker is left
untouched: extension happens only after a fully successful structural
decode. -/
theorem next_err_tracker_unchanged (H : HashSpec) (st : ParserState)
    (e : Error) (st2 : ParserState) (h : Parser.next H st = (.err e, st2)) :
    st2.pcr_tracker = st.pcr_tracker := by
  unfold Parser.next at h
  split at h
  · simp at h
  rename_i pcr r1 heq1
  split at h
  · injection h with hA hB
    rw [← hB]
  rename_i sha r2 heq2
  split at h
  · injection h with hA hB
    rw [← hB]
  rename_i tns r3 heq3
  split at h
  · injection h with hA hB
    rw [← hB]
  rename_i tnameB r4 heq4
  split at h
  · injection h with hA hB
    rw [← hB]
  rename_i tname heq5
  split at h
  · injection h with hA hB
    rw [← hB]
  rename_i elen r5 heq6
  split at h
  · injection h with hA hB
    rw [← hB]
  rename_i raw rest heq7
  split at h
  · injection h with hA hB
    rw [← hB]
  · simp at h
  rename_i edata edrest heq8
  simp at h

/-! ### Claim theorems -/

/-- Claim C9 — (refuting theorem, code bug): modern-layout digest decoding is
claimed total over its four listed error kinds, but when the first `':'` is
the final byte of the digest buffer, `buf.split_at(split + 2)` panics
(`split + 2` exceeds the buffer length) instead of returning an error. The
concrete input declares a 1-byte buffer consisting of `':'` alone. -/
theorem C9_split_at_panics :
    parse_digest false [1, 0, 0, 0, 58] = .panicked := by decide

/-- Claim C2 counterexample —: with a single byte left in the source — a partial
(one-byte) read of the 4-byte `register_index` field — `Parser::next` signals
clean end-of-log (`Ok(None)`), not a fatal truncation error as the claim
states, because `read_exact` reports `UnexpectedEof` for partial reads too. -/
theorem C2_counterexample :
    Parser.next demoHash ⟨[1], emptyExtender⟩ = (.ok none, ⟨[1], emptyExtender⟩) := by
  decide

/-- Claim C2 — (amended): `Parser::next` signals clean end-of-log exactly when
fewer than four bytes remain at the record boundary (zero *or* one-to-three —
the code cannot distinguish a partial read of `register_index` from clean
exhaustion); once the 4-byte `register_index` has been read, no later failure
is ever reported as end-of-log. -/
theorem C2_eof_vs_truncation (H : HashSpec) (st : ParserState) :
    (st.reader.length < 4 → Parser.next H st = (.ok none, st))
    ∧ (4 ≤ st.reader.length → (Parser.next H st).1 ≠ .ok none) := by
  constructor
  · intro hlt
    have h1 : readU32le st.reader = .error .unexpectedEof := by
      unfold readU32le readExact
      rw [if_neg (by omega)]
    unfold Parser.next
    rw [h1]
  · intro h4
    unfold Parser.next
    split
    · rename_i heq
      have := readU32le_error_length heq
      omega
    · rename_i pcr r1 heq
      repeat' split
      all_goals simp

/-- Claim C2 witness —: the amended theorem applied at a one-byte stream (clean
end-of-log) and at a four-byte stream (whose failure past the first field is
not end-of-log). -/
theorem C2_witness :
    Parser.next demoHash ⟨[1], emptyExtender⟩ = (.ok none, ⟨[1], emptyExtender⟩)
    ∧ (Parser.next demoHash ⟨[1, 2, 3, 4], emptyExtender⟩).1 ≠ .ok none :=
  ⟨(C2_eof_vs_truncation demoHash ⟨[1], emptyExtender⟩).1 (by decide),
   (C2_eof_vs_truncation demoHash ⟨[1, 2, 3, 4], emptyExtender⟩).2 (by decide)⟩

/-- Claim C10 —: whenever `Parser::next` returns a decode error, the register
tracker is exactly what it was before the call — extension happens only for
successfully yielded records. -/
theorem C10_error_never_extends (H : HashSpec) (st : ParserState) (e : Error)
    (st2 : ParserState) (h : Parser.next H st = (.err e, st2)) :
    st2.pcr_tracker = st.pcr_tracker :=
  next_err_tracker_unchanged H st e st2 h

/-- Claim C10 witness —: a four-byte stream fails while reading the template
digest; the tracker stays empty. -/
theorem C10_witness :
    (Parser.next demoHash ⟨[5, 0, 0, 0], emptyExtender⟩).2.pcr_tracker
      = emptyExtender :=
  C10_error_never_extends demoHash ⟨[5, 0, 0, 0], emptyExtender⟩
    (.io .unexpectedEof) (Parser.next demoHash ⟨[5, 0, 0, 0], emptyExtender⟩).2
    (by decide)

/-- Claim C5 counterexample —: the parser does not latch its first decode error.
On a stream holding a bad-template record followed by a well-formed `"ima"`
record, the first `next` fails with the unsupported-template error, yet the
second `next` still yields a record — contradicting "produces no further
records on any subsequent attempt". -/
theorem C5_counterexample :
    (Parser.next demoHash ⟨badRec ++ goodRec, emptyExtender⟩).1
        = .err (.unsupportedTemplate [98, 97, 100])
    ∧ (Parser.next demoHash
          (Parser.next demoHash ⟨badRec ++ goodRec, emptyExtender⟩).2).1
        = .ok (some ⟨10, zeros 20, .ima ⟨.sha1, List.replicate 20 7⟩
            [97, 98, 99, 100]⟩) := by
  decide

/-- Claim C5 — (amended): an error terminates nothing by itself — records already
yielded and tracker state are indeed not rolled back (the tracker is
untouched by the failing call), but the parser is not fused: a subsequent
call to `next` continues from the bytes after the failing record and can
yield further records, as the bad-then-good stream shows. Stopping at the
first error is the caller's convention. -/
theorem C5_error_not_latched :
    (∀ (H : HashSpec) (st : ParserState) (e : Error) (st2 : ParserState),
        Parser.next H st = (.err e, st2) → st2.pcr_tracker = st.pcr_tracker)
    ∧ (Parser.next demoHash
          (Parser.next demoHash ⟨badRec ++ goodRec, emptyExtender⟩).2).1
        = .ok (some ⟨10, zeros 20, .ima ⟨.sha1, List.replicate 20 7⟩
            [97, 98, 99, 100]⟩) := by
  constructor
  · exact next_err_tracker_unchanged
  · decide

/-- Claim C5 witness —: the no-rollback half of the amended claim applied to the
bad-template record alone. -/
theorem C5_witness :
    (Parser.next demoHash ⟨badRec, emptyExtender⟩).2.pcr_tracker
      = emptyExtender :=
  C5_error_not_latched.1 demoHash ⟨badRec, emptyExtender⟩
    (.unsupportedTemplate [98, 97, 100])
    (Parser.next demoHash ⟨badRec, emptyExtender⟩).2 (by decide)

/-- Claim C1 —: whenever `Parser::next` successfully yields a record, the exact
`event_data_len`-byte raw span read from the stream (the same span handed to
`EventData::parse`) is extended into the tracker at the record's register
index, and every supported algorithm's register is independently updated as
`new = Hash(old ++ Hash(raw))`, with `old` defaulting to all-zero bytes of
the algorithm's width; registers at other indices are untouched. -/
theorem C1_success_extends_exact_raw_span (H : HashSpec)
    (st st2 : ParserState) (ev : Event)
    (h : Parser.next H st = (.ok (some ev), st2)) :
    ∃ r1 r2 tns r3 tnameB r4 tname elen r5 raw rest edrest,
      readU32le st.reader = .ok (ev.pcr_index, r1) ∧
      readExact 20 r1 = .ok (ev.template_sha1, r2) ∧
      readU32le r2 = .ok (tns, r3) ∧
      readExact tns r3 = .ok (tnameB, r4) ∧
      utf8Decode tnameB = some tname ∧
      readU32le r4 = .ok (elen, r5) ∧
      readExact elen r5 = .ok (raw, rest) ∧
      raw.length = elen ∧
      EventData.parse tname raw = .ok (ev.data, edrest) ∧
      st2 = ⟨rest, PcrExtender.extend H st.pcr_tracker ev.pcr_index raw⟩ ∧
      (∀ a : Alg, List.lookup ev.pcr_index (st2.pcr_tracker.bank a) =
        some (H.hash a
          (((List.lookup ev.pcr_index (st.pcr_tracker.bank a)).getD
              (zeros a.outLen)) ++ H.hash a raw))) ∧
      (∀ a : Alg, ∀ j, j ≠ ev.pcr_index →
        List.lookup j (st2.pcr_tracker.bank a) =
          List.lookup j (st.pcr_tracker.bank a)) := by
  unfold Parser.next at h
  split at h
  · simp at h
  rename_i pcr r1 heq1
  split at h
  · simp at h
  rename_i sha r2 heq2
  split at h
  · simp at h
  rename_i tns r3 heq3
  split at h
  · simp at h
  rename_i tnameB r4 heq4
  split at h
  · simp at h
  rename_i tname heq5
  split at h
  · simp at h
  rename_i elen r5 heq6
  split at h
  · simp at h
  rename_i raw rest heq7
  split at h
  · simp at h
  · simp at h
  rename_i edata edrest heq8
  injection h with hA hB
  injection hA with hA2
  injection hA2 with hA3
  subst hA3
  subst hB
  refine ⟨r1, r2, tns, r3, tnameB, r4, tname, elen, r5, raw, rest, edrest,
    heq1, heq2, heq3, heq4, heq5, heq6, heq7, (readExact_eq_ok heq7).1, heq8,
    rfl, ?_, ?_⟩
  · intro a
    rw [bank_extend, if_pos rfl]
  · intro a j hj
    rw [bank_extend, if_neg hj]

/-- Claim C1 witness —: the theorem applied to a concrete one-record `"ima"` log
targeting register 10 under the demonstration hash family. -/
theorem C1_witness :
    ∃ r1 r2 tns r3 tnameB r4 tname elen r5 raw rest edrest,
      readU32le goodRec = .ok (10, r1) ∧
      readExact 20 r1 = .ok (zeros 20, r2) ∧
      readU32le r2 = .ok (tns, r3) ∧
      readExact tns r3 = .ok (tnameB, r4) ∧
      utf8Decode tnameB = some tname ∧
      readU32le r4 = .ok (elen, r5) ∧
      readExact elen r5 = .ok (raw, rest) ∧
      raw.length = elen ∧
      EventData.parse tname raw
        = .ok (.ima ⟨.sha1, List.replicate 20 7⟩ [97, 98, 99, 100], edrest) ∧
      (⟨[], PcrExtender.extend demoHash emptyExtender 10 goodRaw⟩ : ParserState)
        = ⟨rest, PcrExtender.extend demoHash emptyExtender 10 raw⟩ ∧
      (∀ a : Alg, List.lookup 10
          ((PcrExtender.extend demoHash emptyExtender 10 goodRaw).bank a) =
        some (demoHash.hash a
          (((List.lookup 10 (emptyExtender.bank a)).getD (zeros a.outLen))
            ++ demoHash.hash a raw))) ∧
      (∀ a : Alg, ∀ j, j ≠ 10 →
        List.lookup j
            ((PcrExtender.extend demoHash emptyExtender 10 goodRaw).bank a) =
          List.lookup j (emptyExtender.bank a)) :=
  C1_success_extends_exact_raw_span demoHash ⟨goodRec, emptyExtender⟩
    ⟨[], PcrExtender.extend demoHash emptyExtender 10 goodRaw⟩
    ⟨10, zeros 20, .ima ⟨.sha1, List.replicate 20 7⟩ [97, 98, 99, 100]⟩
    (by decide)

/-- Claim C6 —: under any digest family whose outputs are never all-zero (true of
real hash functions), the snapshot produced by `Parser::pcr_values` after
replaying a list of extensions from the fresh tracker contains exactly the
register indices that were extended at least once: never-extended indices
are entirely absent from the mapping. -/
theorem C6_snapshot_exactly_extended (H : HashSpec)
    (hH : ∀ a m, ∃ b, b ∈ H.hash a m ∧ b ≠ 0)
    (tr : List (Nat × List Nat)) (reader : List Nat) (j : Nat) :
    (List.lookup j
        (Parser.pcr_values ⟨reader, replayExtends H emptyExtender tr⟩)).isSome
        = true
      ↔ j ∈ tr.map Prod.fst := by
  unfold Parser.pcr_values
  rw [lookup_p2v_isSome]
  constructor
  · rintro ⟨a, _, e, hmem, hj, _⟩
    obtain ⟨j2, v⟩ := e
    cases hj
    have hsome : (List.lookup j2
        ((replayExtends H emptyExtender tr).bank a)).isSome = true :=
      lookup_isSome_of_mem hmem
    rcases (replay_bank_isSome H a j2 tr emptyExtender).mp hsome with hv | hm
    · rw [emptyExtender_bank] at hv
      simp [List.lookup] at hv
    · exact hm
  · intro hm
    have hsome : (List.lookup j
        ((replayExtends H emptyExtender tr).bank .sha1)).isSome = true :=
      (replay_bank_isSome H .sha1 j tr emptyExtender).mpr (Or.inr hm)
    rcases Option.isSome_iff_exists.mp hsome with ⟨v, hv⟩
    have hnz : ∃ b, b ∈ v ∧ b ≠ 0 := by
      refine replay_values_nonzero H hH tr emptyExtender ?_ .sha1 j v hv
      intro a2 j2 v2 h2
      rw [emptyExtender_bank] at h2
      simp [List.lookup] at h2
    exact ⟨.sha1, by simp [allAlgs], (j, v), mem_of_lookup_eq_some hv, rfl,
      (isZeroVal_false_iff v).mpr hnz⟩

/-- Claim C6 witness —: after one extension of register 10, the snapshot holds
an entry for index 10. -/
theorem C6_witness :
    (List.lookup 10 (Parser.pcr_values
        ⟨[], replayExtends demoHash emptyExtender [(10, [97])]⟩)).isSome
        = true :=
  (C6_snapshot_exactly_extended demoHash
      (fun a m => ⟨1, by simp [demoHash], by decide⟩) [(10, [97])] [] 10).mpr
    (by decide)

/-- Claim C4 —: the template dispatcher decodes fields in the template-defined
order and builds the matching variant — `"ima"` uses the legacy digest then
a raw-layout name; `"ima-ng"` the modern digest then a raw-layout name;
`"ima-sig"`, `"ima-buf"`, `"ima-modsig"` the modern digest then a
strict-layout name and then their trailing-field decoders (unimplemented
placeholders: reaching them panics, so only the first two templates can
complete); every other template name yields the named unsupported-template
error carrying that name. -/
theorem C4_template_dispatch (t s : List Nat) :
    (t ∉ [imaLit, imaNgLit, imaSigLit, imaBufLit, imaModsigLit] →
      EventData.parse t s = .err (.unsupportedTemplate t))
    ∧ (EventData.parse imaLit s =
        (parse_digest true s).bind fun ds =>
          (parse_name true ds.2).bind fun ns => .ok (.ima ds.1 ns.1, ns.2))
    ∧ (EventData.parse imaNgLit s =
        (parse_digest false s).bind fun ds =>
          (parse_name true ds.2).bind fun ns => .ok (.imaNg ds.1 ns.1, ns.2))
    ∧ (EventData.parse imaSigLit s =
        (parse_digest false s).bind fun ds =>
          (parse_name false ds.2).bind fun _ => .panicked)
    ∧ (EventData.parse imaBufLit s =
        (parse_digest false s).bind fun ds =>
          (parse_name false ds.2).bind fun _ => .panicked)
    ∧ (EventData.parse imaModsigLit s =
        (parse_digest false s).bind fun ds =>
          (parse_name false ds.2).bind fun _ => .panicked)
    ∧ (∀ ed r2, EventData.parse t s = .ok (ed, r2) →
        (t = imaLit ∧ ∃ dg nm, ed = .ima dg nm) ∨
        (t = imaNgLit ∧ ∃ dg nm, ed = .imaNg dg nm)) := by
  refine ⟨?_, ?_, ?_, ?_, ?_, ?_, ?_⟩
  · intro h
    simp only [List.mem_cons, List.not_mem_nil, or_false, not_or] at h
    obtain ⟨h1, h2, h3, h4, h5⟩ := h
    unfold EventData.parse
    rw [if_neg h1, if_neg h2, if_neg h3, if_neg h4, if_neg h5]
  · rfl
  · rfl
  · rfl
  · rfl
  · rfl
  · intro ed r2 hp
    unfold EventData.parse at hp
    by_cases h1 : t = imaLit
    · rw [if_pos h1] at hp
      left
      refine ⟨h1, ?_⟩
      cases hd : parse_digest true s with
      | ok ds =>
        rw [hd] at hp
        simp only [PRes.bind] at hp
        cases hn : parse_name true ds.2 with
        | ok ns =>
          rw [hn] at hp
          simp only [PRes.bind] at hp
          injection hp with hp1
          injection hp1 with hpa hpb
          exact ⟨ds.1, ns.1, hpa.symm⟩
        | err e =>
          rw [hn] at hp
          simp [PRes.bind] at hp
        | panicked =>
          rw [hn] at hp
          simp [PRes.bind] at hp
      | err e =>
        rw [hd] at hp
        simp [PRes.bind] at hp
      | panicked =>
        rw [hd] at hp
        simp [PRes.bind] at hp
    · rw [if_neg h1] at hp
      by_cases h2 : t = imaNgLit
      · rw [if_pos h2] at hp
        right
        refine ⟨h2, ?_⟩
        cases hd : parse_digest false s with
        | ok ds =>
          rw [hd] at hp
          simp only [PRes.bind] at hp
          cases hn : parse_name true ds.2 with
          | ok ns =>
            rw [hn] at hp
            simp only [PRes.bind] at hp
            injection hp with hp1
            injection hp1 with hpa hpb
            exact ⟨ds.1, ns.1, hpa.symm⟩
          | err e =>
            rw [hn] at hp
            simp [PRes.bind] at hp
          | panicked =>
            rw [hn] at hp
            simp [PRes.bind] at hp
        | err e =>
          rw [hd] at hp
          simp [PRes.bind] at hp
        | panicked =>
          rw [hd] at hp
          simp [PRes.bind] at hp
      · rw [if_neg h2] at hp
        by_cases h3 : t = imaSigLit
        · rw [if_pos h3] at hp
          exfalso
          cases hd : parse_digest false s with
          | ok ds =>
            rw [hd] at hp
            simp only [PRes.bind] at hp
            cases hn : parse_name false ds.2 with
            | ok ns =>
              rw [hn] at hp
              simp [PRes.bind, parse_signature] at hp
            | err e =>
              rw [hn] at hp
              simp [PRes.bind] at hp
            | panicked =>
              rw [hn] at hp
              simp [PRes.bind] at hp
          | err e =>
            rw [hd] at hp
            simp [PRes.bind] at hp
          | panicked =>
            rw [hd] at hp
            simp [PRes.bind] at hp
        · rw [if_neg h3] at hp
          by_cases h4 : t = imaBufLit
          · rw [if_pos h4] at hp
            exfalso
            cases hd : parse_digest false s with
            | ok ds =>
              rw [hd] at hp
              simp only [PRes.bind] at hp
              cases hn : parse_name false ds.2 with
              | ok ns =>
                rw [hn] at hp
                simp [PRes.bind, parse_buffer] at hp
              | err e =>
                rw [hn] at hp
                simp [PRes.bind] at hp
              | panicked =>
                rw [hn] at hp
                simp [PRes.bind] at hp
            | err e =>
              rw [hd] at hp
              simp [PRes.bind] at hp
            | panicked =>
              rw [hd] at hp
              simp [PRes.bind] at hp
          · rw [if_neg h4] at hp
            by_cases h5 : t = imaModsigLit
            · rw [if_pos h5] at hp
              exfalso
              cases hd : parse_digest false s with
              | ok ds =>
                rw [hd] at hp
                simp only [PRes.bind] at hp
                cases hn : parse_name false ds.2 with
                | ok ns =>
                  rw [hn] at hp
                  simp [PRes.bind, parse_signature] at hp
                | err e =>
                  rw [hn] at hp
                  simp [PRes.bind] at hp
                | panicked =>
                  rw [hn] at hp
                  simp [PRes.bind] at hp
              | err e =>
                rw [hd] at hp
                simp [PRes.bind] at hp
              | panicked =>
                rw [hd] at hp
                simp [PRes.bind] at hp
            · rw [if_neg h5] at hp
              simp at hp

/-- Claim C4 witness —: the unrecognized template name `"demo"` produces the
named unsupported-template error. -/
theorem C4_witness :
    EventData.parse [100, 101, 109, 111] []
      = .err (.unsupportedTemplate [100, 101, 109, 111]) :=
  (C4_template_dispatch [100, 101, 109, 111] []).1 (by decide)

/-- The strict branch of `parse_name` framed on an exact-length buffer. -/
theorem parse_name_strict_eq (buf rest : List Nat)
    (hlen : buf.length < 4294967296) :
    parse_name false (u32le buf.length ++ (buf ++ rest)) =
      if cstrNulOk buf then
        match utf8Decode buf.dropLast with
        | none => .err .utf8Str
        | some cps => .ok (trimNulSuffix cps, rest)
      else .err .fromCString := by
  unfold parse_name
  simp only [readU32le_append _ hlen, readExact_append,
    if_neg (by decide : ¬ (false = true))]

/-- Claim C8 —: strict-layout name decoding reads a 4-byte LE length then that
many bytes, and succeeds exactly when those bytes are a well-formed
null-terminated string — a single NUL positioned at the final byte (the last
conjunct equates the code's `CStr::from_bytes_with_nul` test with that
single-final-NUL phrasing); any other NUL placement or its absence is the
malformed-C-string decode error, and on success the terminator is stripped
and the remainder UTF-8-decoded, invalid UTF-8 being the fatal text-decode
error. -/
theorem C8_strict_name_layout (buf rest : List Nat) (hlen : buf.length < 4294967296) :
    (cstrNulOk buf = false →
      parse_name false (u32le buf.length ++ (buf ++ rest)) = .err .fromCString)
    ∧ (∀ cp, cstrNulOk buf = true → utf8Decode buf.dropLast = some cp →
        parse_name false (u32le buf.length ++ (buf ++ rest)) = .ok (cp, rest))
    ∧ (cstrNulOk buf = true → utf8Decode buf.dropLast = none →
        parse_name false (u32le buf.length ++ (buf ++ rest)) = .err .utf8Str)
    ∧ (cstrNulOk buf = true ↔ List.count 0 buf = 1 ∧ buf.getLast? = some 0) := by
  have hs := parse_name_strict_eq buf rest hlen
  refine ⟨?_, ?_, ?_, cstrNulOk_iff_count buf⟩
  · intro hF
    rw [hs, if_neg (by simp [hF])]
  · intro cp hT hu
    have h0 : 0 ∉ cp := fun hc =>
      ((cstrNulOk_iff buf).mp hT).2.2
        (utf8Decode_low_mem _ cp hu 0 hc (by omega))
    rw [hs, if_pos hT]
    simp only [hu]
    rw [trimNulSuffix_of_not_mem h0]
  · intro hT hu
    rw [hs, if_pos hT]
    simp only [hu]

/-- Claim C8 witness —: the bytes `"ab\0"` decode to the name `"ab"` with the
terminator stripped. -/
theorem C8_witness :
    parse_name false (u32le 3 ++ ([97, 98, 0] ++ [5])) = .ok ([97, 98], [5]) :=
  (C8_strict_name_layout [97, 98, 0] [5] (by decide)).2.1 [97, 98] (by decide)
    (by decide)

/-- The modern branch of `parse_digest` framed on an exact-length buffer. -/
theorem parse_digest_modern_eq (buf rest : List Nat)
    (hlen : buf.length < 4294967296) :
    parse_digest false (u32le buf.length ++ (buf ++ rest)) =
      match posOf 58 buf with
      | none => .err .dataError
      | some p =>
        if p + 2 ≤ buf.length then
          match utf8Decode (buf.take (p + 2)) with
          | none => .err .utf8Str
          | some cps =>
            match Alg.fromStr (trimColonNulSuffix cps) with
            | some alg => .ok (⟨alg, buf.drop (p + 2)⟩, rest)
            | none => .err (.unknownDigestAlgo (trimColonNulSuffix cps))
        else .panicked := by
  unfold parse_digest
  simp only [readU32le_append _ hlen, readExact_append,
    if_neg (by decide : ¬ (false = true))]

/-- Well-formed modern digest layout: identifier bytes, `":\0"`, digest
bytes. -/
theorem parse_digest_modern_sep (idb d rest cp : List Nat)
    (hcol : 58 ∉ idb) (hu : utf8Decode idb = some cp)
    (hlen : (idb ++ [58, 0] ++ d).length < 4294967296) :
    parse_digest false
        (u32le (idb ++ [58, 0] ++ d).length ++ ((idb ++ [58, 0] ++ d) ++ rest))
      = match Alg.fromStr cp with
        | some a => .ok (⟨a, d⟩, rest)
        | none => .err (.unknownDigestAlgo cp) := by
  have hcp : 58 ∉ cp := fun hc =>
    hcol (utf8Decode_low_mem idb cp hu 58 hc (by omega))
  rw [parse_digest_modern_eq _ rest hlen]
  have hform : idb ++ [58, 0] ++ d = idb ++ 58 :: 0 :: d := by simp
  rw [hform]
  rw [posOf_append_not_mem (0 :: d) hcol]
  simp only []
  rw [if_pos (by simp)]
  have htake : (idb ++ 58 :: 0 :: d).take (idb.length + 2)
      = idb ++ [58, 0] := by
    rw [show (58 :: 0 :: d) = [58, 0] ++ d from rfl, ← List.append_assoc,
      List.take_left' (by simp)]
  have hdrop : (idb ++ 58 :: 0 :: d).drop (idb.length + 2) = d := by
    rw [show (58 :: 0 :: d) = [58, 0] ++ d from rfl, ← List.append_assoc,
      List.drop_left' (by simp)]
  rw [htake, hdrop]
  rw [utf8Decode_append [58, 0] idb cp hu]
  simp only [show utf8Decode [58, 0] = some [58, 0] from by decide,
    Option.map_some']
  rw [trimColonNulSuffix_append hcp]

/-- Claim C7 — (amended): modern-layout digest decoding reads a 4-byte LE length
then that many bytes; the identifier span runs up to *and including* the
first `':'` and the byte after it, with only an exact trailing `":\0"`
trimmed — so the identifier equals the bytes before the colon exactly when
the byte following the colon is NUL (first conjunct; in particular
`b"sha256:\0"` + 32 bytes yields `sha256` and exactly those 32 bytes); input
with no `':'` yields the malformed-data error (second conjunct); and when the
byte after the colon is not NUL, the identifier keeps the colon and that
byte and algorithm lookup fails on it (third conjunct). -/
theorem C7_modern_digest_layout (idb d rest cp : List Nat)
    (hcol : 58 ∉ idb) (hu : utf8Decode idb = some cp)
    (hlen : (idb ++ [58, 0] ++ d).length < 4294967296) :
    (parse_digest false
        (u32le (idb ++ [58, 0] ++ d).length ++ ((idb ++ [58, 0] ++ d) ++ rest))
      = match Alg.fromStr cp with
        | some a => .ok (⟨a, d⟩, rest)
        | none => .err (.unknownDigestAlgo cp))
    ∧ (∀ buf rest2, 58 ∉ buf → buf.length < 4294967296 →
        parse_digest false (u32le buf.length ++ (buf ++ rest2))
          = .err .dataError)
    ∧ parse_digest false
        ([22, 0, 0, 0] ++ (([115, 104, 97, 49, 58, 65] ++ zeros 16) ++ []))
      = .err (.unknownDigestAlgo [115, 104, 97, 49, 58, 65]) := by
  refine ⟨parse_digest_modern_sep idb d rest cp hcol hu hlen, ?_, by decide⟩
  intro buf rest2 hnc hl2
  rw [parse_digest_modern_eq buf rest2 hl2, posOf_not_mem hnc]

/-- Claim C7 counterexample —: on the modern digest bytes `"sha1:A"` + 16 bytes,
the claim's identifier extraction ("every byte before the first `:`, trimmed
of trailing `:`/NUL") produces the recognized algorithm `"sha1"`, so decoding
should succeed per the claim — but the code keeps `"sha1:A"` (exact `":\0"`
suffix trimming removes nothing when the byte after the colon is not NUL) and
fails with the unknown-algorithm error carrying that identifier. -/
theorem C7_counterexample :
    parse_digest false
        ([22, 0, 0, 0] ++ ([115, 104, 97, 49, 58, 65] ++ zeros 16))
      = .err (.unknownDigestAlgo [115, 104, 97, 49, 58, 65])
    ∧ claimModernAlgoIdentifier ([115, 104, 97, 49, 58, 65] ++ zeros 16)
      = some sha1Lit
    ∧ Alg.fromStr sha1Lit = some .sha1 := by
  refine ⟨by decide, by decide, by decide⟩

/-- Claim C7 witness —: `b"sha256:\0"` followed by 32 bytes decodes to algorithm
`sha256` with exactly those 32 bytes. -/
theorem C7_witness :
    parse_digest false
        (u32le ([115, 104, 97, 50, 53, 54] ++ [58, 0] ++ zeros 32).length ++
          (([115, 104, 97, 50, 53, 54] ++ [58, 0] ++ zeros 32) ++ []))
      = .ok (⟨.sha256, zeros 32⟩, []) :=
  (C7_modern_digest_layout [115, 104, 97, 50, 53, 54] (zeros 32) []
    [115, 104, 97, 50, 53, 54] (by decide) (by decide) (by decide)).1

/-- The legacy branch of `parse_digest`: twenty raw bytes, algorithm fixed to
sha1, no length prefix. -/
theorem parse_digest_legacy_eq (s : List Nat) :
    parse_digest true s =
      match readExact 20 s with
      | .error e => .err (.io e)
      | .ok (buf, s2) => .ok (⟨.sha1, buf⟩, s2) := rfl

/-- Claim C3 counterexample —: the digest codec does not enforce the claimed
length invariant. A modern-layout input declaring a 9-byte buffer
`b"sha256:\0A"` is accepted as a sha256 digest whose byte sequence has
length 1, not the canonical 32 — no decode error is raised. -/
theorem C3_counterexample :
    parse_digest false ([9, 0, 0, 0] ++ [115, 104, 97, 50, 53, 54, 58, 0, 65])
      = .ok (⟨.sha256, [65]⟩, [])
    ∧ (Digest.mk .sha256 [65]).digest.length ≠ Alg.outLen .sha256 := by
  refine ⟨by decide, by decide⟩

/-- Claim C3 — (amended): the length invariant holds only for the legacy layout,
where exactly 20 bytes are always read and tagged sha1; the modern layout
performs no validation of the digest byte count against the algorithm's
canonical output size — for every byte count `n` (here shown with digest
bytes all zero) the decoder accepts a sha256-tagged digest of length `n`. -/
theorem C3_digest_length_unchecked :
    (∀ s d r, parse_digest true s = .ok (d, r) →
      d.algo = .sha1 ∧ d.digest.length = 20)
    ∧ (∀ n, ([115, 104, 97, 50, 53, 54] ++ [58, 0] ++ zeros n).length
          < 4294967296 →
        parse_digest false
          (u32le ([115, 104, 97, 50, 53, 54] ++ [58, 0] ++ zeros n).length ++
            (([115, 104, 97, 50, 53, 54] ++ [58, 0] ++ zeros n) ++ []))
          = .ok (⟨.sha256, zeros n⟩, [])) := by
  constructor
  · intro s d r h
    rw [parse_digest_legacy_eq] at h
    cases h20 : readExact 20 s with
    | error e =>
      rw [h20] at h
      simp at h
    | ok v =>
      obtain ⟨buf, s2⟩ := v
      rw [h20] at h
      simp only [] at h
      injection h with h1
      injection h1 with ha hb
      rw [← ha]
      exact ⟨rfl, (readExact_eq_ok h20).1⟩
  · intro n hn
    exact parse_digest_modern_sep [115, 104, 97, 50, 53, 54] (zeros n) []
      [115, 104, 97, 50, 53, 54] (by decide) (by decide) hn

/-- Claim C3 witness —: the amended theorem applied at a concrete legacy input
(20 zero bytes) and at a modern input carrying a 5-byte digest. -/
theorem C3_witness :
    ((Digest.mk .sha1 (zeros 20)).algo = .sha1
      ∧ (Digest.mk .sha1 (zeros 20)).digest.length = 20)
    ∧ parse_digest false
        (u32le ([115, 104, 97, 50, 53, 54] ++ [58, 0] ++ zeros 5).length ++
          (([115, 104, 97, 50, 53, 54] ++ [58, 0] ++ zeros 5) ++ []))
        = .ok (⟨.sha256, zeros 5⟩, []) :=
  ⟨C3_digest_length_unchecked.1 (zeros 20) ⟨.sha1, zeros 20⟩ [] (by decide),
   C3_digest_length_unchecked.2 5 (by decide)⟩
